import Mathlib

/-
Verification of the algorithmic core of SequenceGenie (seq_genie/utils.py and
seq_genie/nicole.py) against its natural-language specification.

The embedding models:
  * `_get_ranges` / `_get_ranges_str` (range compression of deletion positions),
  * `analyse_vcf` together with the structured view of `_vcf_to_df` /
    `_expand_info` (variant classification),
  * `bin_seqs` / `_bin_seq` (barcode demultiplexing),
  * `_replace_indels` (utils) and `_strip` (nicole) (consensus reconstruction).

File I/O, subprocess calls and the VCF/SAM text formats are external
collaborators per the spec; they are reduced here to the structured shapes the
core consumes (rows, alignment pairs, score functions).
-/

namespace SeqGenie

/- ================================================================
   Range compressor: `_get_ranges` in seq_genie/utils.py.

   The source groups `enumerate(vals)` with `itertools.groupby` keyed on
   `y - x` (value minus enumeration index).  `groupby` merges *adjacent*
   elements with equal keys, and since enumeration indices increase by one,
   two adjacent elements `(i, y)`, `(i+1, y2)` share a key exactly when
   `y2 = y + 1`.  The translation therefore closes the current run exactly
   when the next value is not the previous plus one; each group contributes
   the pair (first value, last value).
   ================================================================ -/

/-- Worker for `get_ranges`: `start` is the first value of the current group
and `prev` the most recent value of the current group. -/
def getRangesGo (start prev : Int) : List Int → List (Int × Int)
  | [] => [(start, prev)]
  | v :: vs =>
      if v = prev + 1 then getRangesGo start v vs
      else (start, prev) :: getRangesGo v v vs

/-- Function `_get_ranges` from seq_genie/utils.py: convert a list of integers to
inclusive ranges of consecutive values. -/
def get_ranges : List Int → List (Int × Int)
  | [] => []
  | v :: vs => getRangesGo v v vs

/-- Function `_get_ranges_str` from seq_genie/utils.py: a range is rendered as
`start-end`, a singleton range as the bare value. -/
def get_ranges_str (vals : List Int) : List String :=
  (get_ranges vals).map
    (fun rnge => if rnge.1 ≠ rnge.2
      then toString rnge.1 ++ "-" ++ toString rnge.2
      else toString rnge.1)

/-- The list of integers an inclusive range `(s, e)` covers. -/
def rangeList (s e : Int) : List Int :=
  (List.range (e - s + 1).toNat).map (fun i => s + Int.ofNat i)

theorem rangeList_self (p : Int) : rangeList p p = [p] := by
  have h1 : List.range 1 = [0] := by decide
  simp [rangeList, h1]

theorem rangeList_succ (s e : Int) (h : s ≤ e + 1) :
    rangeList s (e + 1) = rangeList s e ++ [e + 1] := by
  unfold rangeList
  have h1 : (e + 1 - s + 1).toNat = (e - s + 1).toNat + 1 := by
    omega
  have h2 : s + Int.ofNat (e - s + 1).toNat = e + 1 := by
    rw [Int.ofNat_eq_coe]
    omega
  rw [h1, List.range_succ, List.map_append]
  simp only [List.map_cons, List.map_nil, h2]

theorem getRangesGo_flatten (l : List Int) :
    ∀ start prev : Int, start ≤ prev → List.Chain' (· < ·) (prev :: l) →
      (getRangesGo start prev l).flatMap (fun r => rangeList r.1 r.2) =
        rangeList start prev ++ l := by
  induction l with
  | nil =>
      intro start prev _ _
      simp [getRangesGo]
  | cons v vs ih =>
      intro start prev hsp hch
      have hpv : prev < v := (List.chain'_cons.mp hch).1
      have hch2 : List.Chain' (· < ·) (v :: vs) := (List.chain'_cons.mp hch).2
      by_cases hv : v = prev + 1
      · subst hv
        rw [getRangesGo, if_pos rfl]
        rw [ih start (prev + 1) (by omega) hch2]
        rw [rangeList_succ start prev (by omega)]
        simp
      · rw [getRangesGo, if_neg hv]
        rw [List.flatMap_cons]
        rw [ih v v le_rfl hch2]
        rw [rangeList_self]
        simp

theorem getRangesGo_chain (l : List Int) :
    ∀ start prev : Int, List.Chain' (· < ·) (prev :: l) →
      ∃ e rest, getRangesGo start prev l = (start, e) :: rest ∧ prev ≤ e ∧
        List.Chain' (fun a b : Int × Int => a.2 + 1 < b.1)
          ((start, e) :: rest) := by
  induction l with
  | nil =>
      intro start prev _
      exact ⟨prev, [], rfl, le_rfl, List.chain'_singleton _⟩
  | cons v vs ih =>
      intro start prev hch
      have hpv : prev < v := (List.chain'_cons.mp hch).1
      have hch2 : List.Chain' (· < ·) (v :: vs) := (List.chain'_cons.mp hch).2
      by_cases hv : v = prev + 1
      · subst hv
        rw [getRangesGo, if_pos rfl]
        obtain ⟨e, rest, heq, hle, hc⟩ := ih start (prev + 1) hch2
        exact ⟨e, rest, heq, by omega, hc⟩
      · rw [getRangesGo, if_neg hv]
        obtain ⟨e, rest, heq, hle, hc⟩ := ih v v hch2
        refine ⟨prev, getRangesGo v v vs, rfl, le_rfl, ?_⟩
        rw [heq]
        exact List.chain'_cons.mpr ⟨by simp; omega, hc⟩

/-- Claim C5: for every sorted strictly ascending integer sequence,
`_get_ranges` returns ordered inclusive `(start, end)` pairs that are pairwise
non-adjacent (no gap of exactly 1: each range end plus one is strictly below
the next range start) and whose ranges, concatenated in order, recover exactly
the input (hence each pair covers a maximal run of consecutive inputs); a
singleton run `p` yields `(p, p)`, and `[1,2,3,7,9,10]` yields
`[(1,3),(7,7),(9,10)]`. -/
theorem C5_range_compressor (vals : List Int)
    (hsorted : List.Chain' (· < ·) vals) :
    (List.Chain' (fun a b : Int × Int => a.2 + 1 < b.1) (get_ranges vals)
      ∧ (get_ranges vals).flatMap (fun r => rangeList r.1 r.2) = vals)
    ∧ (∀ p : Int, get_ranges [p] = [(p, p)])
    ∧ get_ranges [1, 2, 3, 7, 9, 10] = [(1, 3), (7, 7), (9, 10)] := by
  refine ⟨⟨?_, ?_⟩, fun p => rfl, by decide⟩
  · cases vals with
    | nil => simp [get_ranges]
    | cons v vs =>
        obtain ⟨e, rest, heq, _, hc⟩ := getRangesGo_chain vs v v hsorted
        rw [get_ranges, heq]
        exact hc
  · cases vals with
    | nil => simp [get_ranges]
    | cons v vs =>
        rw [get_ranges, getRangesGo_flatten vs v v le_rfl hsorted,
          rangeList_self]
        rfl

theorem C5_range_compressor_witness :
    (get_ranges [1, 2, 3, 7, 9, 10]).flatMap (fun r => rangeList r.1 r.2) =
      [1, 2, 3, 7, 9, 10] :=
  (C5_range_compressor [1, 2, 3, 7, 9, 10]
    (by norm_num [List.chain'_cons])).1.2

/- ================================================================
   Variant classifier: `analyse_vcf` in seq_genie/utils.py working on the
   structured row view produced by `_vcf_to_df` / `_expand_info`.

   A `VcfRow` holds the fields of one data line after INFO expansion:
   `pos` (POS, cast to int), `ref` (REF), `alts` (ALT split on commas),
   `dp` (the DP INFO value, cast to int), `qs` (the QS INFO values, parsed
   as numbers) and `indel` (whether the row's INFO carries the INDEL flag).

   Two run-level facts of the dataframe view are modelled explicitly:
     * `DP_PROP` is the row's DP divided by the maximum DP of the whole
       dataframe (`df['DP'] / df['DP'].max()`);
     * after `_expand_info`, the dataframe has an INDEL *column* exactly
       when at least one row's INFO carries the INDEL flag, and the test
       `'INDEL' in row` on a pandas Series checks membership in the row's
       index, i.e. column presence — a run-level condition, not the row's
       own (fillna-normalised) boolean value.
   ================================================================ -/

/-- One VCF data row after INFO expansion. -/
structure VcfRow where
  pos : Int
  ref : String
  alts : List String
  dp : Nat
  qs : List ℚ
  indel : Bool
deriving DecidableEq

/-- A mutation entry of `analyse_vcf`: the source renders it as the string
`REF + str(POS) + called + ' ' + str(max(qs))`; it carries the position, the
reference base, the called base and the winning QS value. -/
structure MutationRec where
  pos : Int
  ref : String
  called : String
  score : ℚ
deriving DecidableEq

/-- An indel entry of `analyse_vcf`: the source renders it as the string
`REF + str(POS) + ALT`; it carries the reference, the position and the raw
ALT field. -/
structure IndelRec where
  ref : String
  pos : Int
  alt : String
deriving DecidableEq

/-- The four accumulators of `analyse_vcf`. -/
structure ClassifyResult where
  num_matches : Nat
  mutations : List MutationRec
  indels : List IndelRec
  deletions : List Int
deriving DecidableEq

/-- Modelled from the documented behaviour of numpy (external collaborator):
`np.argmax` returns the index of the first occurrence of the maximum value. -/
def np_argmax : List ℚ → Nat
  | [] => 0
  | [_] => 0
  | x :: y :: xs =>
      if x < (y :: xs).getD (np_argmax (y :: xs)) 0
      then np_argmax (y :: xs) + 1
      else 0

/-- Modelled from the builtin `max` of Python on a non-empty list (external
collaborator); the value on `[]` is junk (Python raises there). -/
def pymax : List ℚ → ℚ
  | [] => 0
  | [x] => x
  | x :: y :: xs => max x (pymax (y :: xs))

/-- The coverage admissibility test of `analyse_vcf`:
`(dp_filter > 1 and row['DP'] > dp_filter) or row['DP_PROP'] > dp_filter`,
with `DP_PROP = DP / max DP of the run`. -/
def admissible (dp_filter : ℚ) (maxDp : Nat) (row : VcfRow) : Bool :=
  (decide (1 < dp_filter) && decide (dp_filter < (row.dp : ℚ)))
    || decide (dp_filter < (row.dp : ℚ) / (maxDp : ℚ))

/-- The raw ALT field of a row (its comma-separated alternate list). -/
def altField (row : VcfRow) : String :=
  String.intercalate "," row.alts

/-- One iteration of the row loop of `analyse_vcf`.  `hasIndelCol` is the
run-level value of `'INDEL' in row` (INDEL column presence). -/
def classify_step (hasIndelCol : Bool) (dp_filter : ℚ) (maxDp : Nat)
    (res : ClassifyResult) (row : VcfRow) : ClassifyResult :=
  if hasIndelCol then
    { res with indels := res.indels ++ [⟨row.ref, row.pos, altField row⟩] }
  else if admissible dp_filter maxDp row then
    let alleles := row.ref :: row.alts
    let hi_prob_base := alleles.getD (np_argmax row.qs) ""
    if row.ref ≠ hi_prob_base then
      { res with mutations :=
          res.mutations ++ [⟨row.pos, row.ref, hi_prob_base, pymax row.qs⟩] }
    else
      { res with num_matches := res.num_matches + 1 }
  else
    { res with deletions := res.deletions ++ [row.pos] }

/-- The row loop of `analyse_vcf` over the structured dataframe view. -/
def classify_rows (rows : List VcfRow) (dp_filter : ℚ) : ClassifyResult :=
  rows.foldl
    (classify_step (rows.any (·.indel)) dp_filter
      ((rows.map (·.dp)).max?.getD 0))
    ⟨0, [], [], []⟩

/-- Function `analyse_vcf` from seq_genie/utils.py: number of matches, mutations,
indels, and the deletion positions compressed to range strings. -/
def analyse_vcf (rows : List VcfRow) (dp_filter : ℚ) :
    Nat × List MutationRec × List IndelRec × List String :=
  let r := classify_rows rows dp_filter
  (r.num_matches, r.mutations, r.indels, get_ranges_str r.deletions)

/-- Expression `alleles[np.argmax(qs)]` for a row: the called (most likely) base. -/
def calledBase (row : VcfRow) : String :=
  (row.ref :: row.alts).getD (np_argmax row.qs) ""

theorem np_argmax_lt_length (l : List ℚ) (h : l ≠ []) :
    np_argmax l < l.length := by
  induction l with
  | nil => exact absurd rfl h
  | cons x xs ih =>
      cases xs with
      | nil => simp [np_argmax]
      | cons y ys =>
          rw [np_argmax]
          split
          · have := ih (by simp)
            simpa using Nat.succ_lt_succ this
          · simp

theorem getD_le_getD_np_argmax (l : List ℚ) :
    ∀ j, j < l.length → l.getD j 0 ≤ l.getD (np_argmax l) 0 := by
  induction l with
  | nil => intro j hj; simp at hj
  | cons x xs ih =>
      cases xs with
      | nil =>
          intro j hj
          have hj0 : j = 0 := by simpa using Nat.lt_one_iff.mp (by simpa using hj)
          subst hj0
          simp [np_argmax]
      | cons y ys =>
          intro j hj
          rw [np_argmax]
          split
          case isTrue hlt =>
            rw [List.getD_cons_succ]
            cases j with
            | zero => exact le_of_lt (by simpa using hlt)
            | succ j' =>
                rw [List.getD_cons_succ]
                exact ih j' (by simpa using Nat.lt_of_succ_lt_succ hj)
          case isFalse hge =>
            rw [List.getD_cons_zero]
            cases j with
            | zero => simp
            | succ j' =>
                rw [List.getD_cons_succ]
                have h1 := ih j' (by simpa using Nat.lt_of_succ_lt_succ hj)
                have h2 : (y :: ys).getD (np_argmax (y :: ys)) 0 ≤ x :=
                  not_lt.mp hge
                exact le_trans h1 h2

theorem getD_lt_getD_np_argmax (l : List ℚ) :
    ∀ j, j < np_argmax l → l.getD j 0 < l.getD (np_argmax l) 0 := by
  induction l with
  | nil => intro j hj; simp [np_argmax] at hj
  | cons x xs ih =>
      cases xs with
      | nil => intro j hj; simp [np_argmax] at hj
      | cons y ys =>
          intro j hj
          rw [np_argmax] at hj ⊢
          split at hj
          case isTrue hlt =>
            rw [if_pos hlt, List.getD_cons_succ]
            cases j with
            | zero => simpa using hlt
            | succ j' =>
                rw [List.getD_cons_succ]
                exact ih j' (Nat.lt_of_succ_lt_succ hj)
          case isFalse hge => exact absurd hj (by simp)

theorem pymax_eq_getD_np_argmax (l : List ℚ) (h : l ≠ []) :
    pymax l = l.getD (np_argmax l) 0 := by
  induction l with
  | nil => exact absurd rfl h
  | cons x xs ih =>
      cases xs with
      | nil => simp [pymax, np_argmax]
      | cons y ys =>
          rw [pymax, np_argmax, ih (by simp)]
          split
          case isTrue hlt =>
            rw [List.getD_cons_succ]
            exact max_eq_right (le_of_lt hlt)
          case isFalse hge =>
            rw [List.getD_cons_zero]
            exact max_eq_left (not_lt.mp hge)

theorem classify_fold_flagged (dp_filter : ℚ) (maxDp : Nat)
    (rows : List VcfRow) :
    ∀ res : ClassifyResult,
      rows.foldl (classify_step true dp_filter maxDp) res =
        { res with indels :=
            res.indels ++ rows.map (fun r => ⟨r.ref, r.pos, altField r⟩) } := by
  induction rows with
  | nil => intro res; simp
  | cons r rs ih =>
      intro res
      rw [List.foldl_cons, ih]
      simp [classify_step, List.append_assoc]

theorem classify_fold_unflagged (dp_filter : ℚ) (maxDp : Nat)
    (rows : List VcfRow) :
    ∀ res : ClassifyResult,
      rows.foldl (classify_step false dp_filter maxDp) res =
        { num_matches := res.num_matches +
            (rows.filter (fun r => admissible dp_filter maxDp r
              && decide (r.ref = calledBase r))).length,
          mutations := res.mutations ++
            (rows.filter (fun r => admissible dp_filter maxDp r
              && !(decide (r.ref = calledBase r)))).map
              (fun r => ⟨r.pos, r.ref, calledBase r, pymax r.qs⟩),
          indels := res.indels,
          deletions := res.deletions ++
            (rows.filter
              (fun r => !(admissible dp_filter maxDp r))).map (·.pos) } := by
  induction rows with
  | nil => intro res; simp
  | cons r rs ih =>
      intro res
      rw [List.foldl_cons, ih]
      by_cases hadm : admissible dp_filter maxDp r = true
      · by_cases heq : r.ref = calledBase r
        · have hstep : classify_step false dp_filter maxDp res r =
              { res with num_matches := res.num_matches + 1 } := by
            simp [classify_step, hadm, calledBase] at heq ⊢
            exact heq
          rw [hstep]
          simp [List.filter_cons, hadm, heq]
          omega
        · have hstep : classify_step false dp_filter maxDp res r =
              { res with mutations := res.mutations ++
                  [⟨r.pos, r.ref, calledBase r, pymax r.qs⟩] } := by
            simp [classify_step, hadm, calledBase] at heq ⊢
            exact heq
          rw [hstep]
          simp [List.filter_cons, hadm, heq]
      · have hstep : classify_step false dp_filter maxDp res r =
            { res with deletions := res.deletions ++ [r.pos] } := by
          simp [classify_step, hadm]
        rw [hstep]
        simp [List.filter_cons, hadm]

theorem filter_tri_length {α : Type} (p q : α → Bool) (l : List α) :
    (l.filter fun a => p a && q a).length
      + (l.filter fun a => p a && !(q a)).length
      + (l.filter fun a => !(p a)).length = l.length := by
  induction l with
  | nil => simp
  | cons a t ih =>
      simp only [List.filter_cons]
      cases hp : p a <;> cases hq : q a <;> simp [hp, hq] <;> omega

/-- Claim C10: in every classification run in which at least one row carries
the INDEL flag, the dataframe has an INDEL column, so `'INDEL' in row` holds
for every row of the run and every row — flagged or not — is recorded as an
indel entry, with match count 0 and empty mutation and deletion outputs; in a
run containing no flagged row at all, no row is ever recorded as an indel and
every row is classified into exactly one of match, mutation or deletion. -/
theorem C10_indel_column_contaminates_run (rows : List VcfRow)
    (dp_filter : ℚ) :
    (rows.any (·.indel) = true →
      classify_rows rows dp_filter =
        ⟨0, [], rows.map (fun r => ⟨r.ref, r.pos, altField r⟩), []⟩)
    ∧ (rows.any (·.indel) = false →
      (classify_rows rows dp_filter).indels = []
        ∧ (classify_rows rows dp_filter).num_matches
            + (classify_rows rows dp_filter).mutations.length
            + (classify_rows rows dp_filter).deletions.length
          = rows.length) := by
  constructor
  · intro hany
    unfold classify_rows
    rw [hany, classify_fold_flagged]
    simp
  · intro hany
    unfold classify_rows
    rw [hany, classify_fold_unflagged]
    refine ⟨rfl, ?_⟩
    simp only [List.length_append, List.length_map, List.nil_append,
      Nat.zero_add]
    exact filter_tri_length _ _ rows

theorem C10_indel_column_contaminates_run_witness :
    classify_rows
        [⟨1, "A", ["G"], 10, [1, 2], true⟩,
         ⟨2, "C", ["T"], 10, [9, 1], false⟩] 2 =
      ⟨0, [], [⟨"A", 1, "G"⟩, ⟨"C", 2, "T"⟩], []⟩ := by
  have h := (C10_indel_column_contaminates_run
    [⟨1, "A", ["G"], 10, [1, 2], true⟩,
     ⟨2, "C", ["T"], 10, [9, 1], false⟩] 2).1 (by decide)
  simpa [altField] using h

/-- Claim C1 (evaluation at the failing input): the claim requires a row
whose INDEL flag is not set never to be recorded as an indel entry, but in a
run holding one flagged and one unflagged row the unflagged row is recorded
as an indel entry too, and the flagged/unflagged distinction contributes
nothing: the match count is 0 even though the unflagged row has winning
reference QS and depth 500 above the filter. -/
theorem C1_unflagged_row_recorded_as_indel :
    (VcfRow.indel ⟨2, "C", ["T"], 500, [90, 10], false⟩ = false)
    ∧ (classify_rows
        [⟨1, "A", ["G"], 10, [1, 2], true⟩,
         ⟨2, "C", ["T"], 500, [90, 10], false⟩] 2).indels =
        [⟨"A", 1, "G"⟩, ⟨"C", 2, "T"⟩]
    ∧ (classify_rows
        [⟨1, "A", ["G"], 10, [1, 2], true⟩,
         ⟨2, "C", ["T"], 500, [90, 10], false⟩] 2).num_matches = 0 := by
  decide

/-- Claim C6 (evaluation at the failing input): the claim requires every
non-indel row failing the coverage test to be recorded as a deletion
candidate, but in a run holding one flagged row, an unflagged row of depth 0
(inadmissible: the run's max depth is 100, so neither disjunct of the test
holds) is recorded as an indel entry and the deletion output stays empty. -/
theorem C6_inadmissible_row_not_recorded_as_deletion :
    (admissible 2 100 ⟨2, "C", ["T"], 0, [1], false⟩ = false)
    ∧ ((([⟨1, "A", ["G"], 100, [1], true⟩,
          ⟨2, "C", ["T"], 0, [1], false⟩] : List VcfRow).map (·.dp)).max?.getD 0
        = 100)
    ∧ (classify_rows
        [⟨1, "A", ["G"], 100, [1], true⟩,
         ⟨2, "C", ["T"], 0, [1], false⟩] 2).deletions = []
    ∧ (classify_rows
        [⟨1, "A", ["G"], 100, [1], true⟩,
         ⟨2, "C", ["T"], 0, [1], false⟩] 2).indels =
        [⟨"A", 1, "G"⟩, ⟨"C", 2, "T"⟩] := by
  refine ⟨?_, by decide, by decide, by decide⟩
  norm_num [admissible]

/-- Claim C7 (evaluation at the failing input): the claim requires an
admissible non-indel row whose QS argmax picks an alternate to add a mutation
record, but in a run holding one flagged row, an admissible unflagged row
with QS `[10, 90]` over alleles `[A, G]` (called base G) adds no mutation and
no match: both rows are recorded as indel entries. -/
theorem C7_admissible_mutation_row_not_recorded :
    (admissible 2 100 ⟨2, "A", ["G"], 100, [10, 90], false⟩ = true)
    ∧ (calledBase ⟨2, "A", ["G"], 100, [10, 90], false⟩ = "G")
    ∧ (classify_rows
        [⟨1, "T", ["TA"], 100, [5], true⟩,
         ⟨2, "A", ["G"], 100, [10, 90], false⟩] 2).mutations = []
    ∧ (classify_rows
        [⟨1, "T", ["TA"], 100, [5], true⟩,
         ⟨2, "A", ["G"], 100, [10, 90], false⟩] 2).num_matches = 0 := by
  refine ⟨?_, by decide, by decide, by decide⟩
  norm_num [admissible]

/- ================================================================
   Barcode demultiplexer: `bin_seqs` / `_bin_seq` in seq_genie/utils.py.

   The fuzzy scorer (`fuzzywuzzy.fuzz.partial_ratio`) and Biopython's
   reverse complement are external collaborators; they enter the embedding
   as the function parameters `pr` and `rc`.  Sequences are lists of
   characters; Python's slice `s[:k]` is `take k` and `s[-k:]` is
   `drop (length - k)` except that `s[-0:]` is the whole string.
   ================================================================ -/

/-- A read: identifier and nucleotide sequence. -/
structure Read where
  id : String
  seq : List Char
deriving DecidableEq

/-- A barcode pair (forward primer, reverse primer). -/
abbrev BCPair := List Char × List Char

/-- Keys of the bin mapping: a barcode pair, or the distinguished
`undefined` pseudo-key. -/
inductive BinKey
  | undefined
  | pair (p : BCPair)
deriving DecidableEq

/-- Slice `s[:k]` of Python. -/
def trimStart (k : Nat) (s : List Char) : List Char := s.take k

/-- Slice `s[-k:]` of Python (for `k = 0` this is the whole string). -/
def trimEnd (k : Nat) (s : List Char) : List Char :=
  if k = 0 then s else s.drop (s.length - k)

/-- One iteration of the barcode loop of `_bin_seq`: score the forward
orientation hypothesis, replace the running best on a strict two-sided
improvement, then do the same for the reverse orientation hypothesis.
`startW` is the prefix window and `endRC` the reverse complement of the
suffix window. -/
def bin_seq_step (pr : List Char → List Char → Nat) (startW endRC : List Char)
    (acc : (Nat × Nat) × Option BCPair) (pair : BCPair) :
    (Nat × Nat) × Option BCPair :=
  let scores_forw := (pr pair.1 startW, pr pair.2 endRC)
  let acc1 := if acc.1.1 < scores_forw.1 ∧ acc.1.2 < scores_forw.2
    then (scores_forw, some pair) else acc
  let scores_rev := (pr pair.2 startW, pr pair.1 endRC)
  if acc1.1.1 < scores_rev.1 ∧ acc1.1.2 < scores_rev.2
  then (scores_rev, some pair) else acc1

/-- Function `_bin_seq` from seq_genie/utils.py, returning the barcode pair the read
is appended under (`none` when `selected_barcodes` stays `None`). -/
def bin_seq (pr : List Char → List Char → Nat) (rc : List Char → List Char)
    (s : Read) (max_barcode_len search_len score_threshold : Nat)
    (barcodes : List BCPair) : Option BCPair :=
  let trim_seq_start := trimStart (max_barcode_len + search_len) s.seq
  let trim_seq_end := trimEnd (max_barcode_len + search_len) s.seq
  (barcodes.foldl (bin_seq_step pr trim_seq_start (rc trim_seq_end))
    ((score_threshold, score_threshold), none)).2

/-- Function `bin_seqs` from seq_genie/utils.py.  The source computes
`max_barcode_len = max([len(barcode) for pair in barcodes for barcode in
pair])` before testing `if barcodes:`, and Python's `max` raises
`ValueError` on an empty sequence, so the `else` branch that would put every
read into the `undefined` bin is unreachable: it is kept here as the same
dead code.  The worker pool appends reads to bins concurrently (order within
a bin is unspecified); the embedding uses the sequential order of `sequences`
as one linearisation. -/
def bin_seqs (pr : List Char → List Char → Nat) (rc : List Char → List Char)
    (barcodes : List BCPair) (sequences : List Read)
    (score_threshold search_len : Nat) :
    Except String (BinKey → List Read) :=
  match (barcodes.flatMap (fun pair => [pair.1.length, pair.2.length])).max?
    with
  | none => .error "max() arg is an empty sequence"
  | some max_barcode_len =>
      if barcodes.isEmpty then
        .ok (fun k => if k = BinKey.undefined then sequences else [])
      else
        .ok (fun k => match k with
          | BinKey.undefined => []
          | BinKey.pair p => sequences.filter (fun s =>
              bin_seq pr rc s max_barcode_len search_len score_threshold
                barcodes = some p))

/-- The per-read orientation hypotheses of `_bin_seq`, in evaluation order:
each barcode pair contributes its forward hypothesis then its reverse
hypothesis, each tagged with its two scores. -/
def bin_hyps (pr : List Char → List Char → Nat) (startW endRC : List Char)
    (barcodes : List BCPair) : List (BCPair × Nat × Nat) :=
  barcodes.flatMap (fun pair =>
    [(pair, pr pair.1 startW, pr pair.2 endRC),
     (pair, pr pair.2 startW, pr pair.1 endRC)])

/-- The pairs whose hypotheses strictly improve the running best on both
sides, in order; the running best starts at `best` and is replaced by each
winning hypothesis's scores. -/
def strictWinners (best : Nat × Nat) :
    List (BCPair × Nat × Nat) → List BCPair
  | [] => []
  | h :: rest =>
      if best.1 < h.2.1 ∧ best.2 < h.2.2
      then h.1 :: strictWinners (h.2.1, h.2.2) rest
      else strictWinners best rest

/-- Reference run over the flattened hypothesis list: the running best pair
together with the currently selected barcode pair. -/
def specRun (best : Nat × Nat) (sel : Option BCPair) :
    List (BCPair × Nat × Nat) → (Nat × Nat) × Option BCPair
  | [] => (best, sel)
  | h :: rest =>
      if best.1 < h.2.1 ∧ best.2 < h.2.2
      then specRun (h.2.1, h.2.2) (some h.1) rest
      else specRun best sel rest

theorem specRun_append (l1 l2 : List (BCPair × Nat × Nat)) :
    ∀ (best : Nat × Nat) (sel : Option BCPair),
      specRun best sel (l1 ++ l2) =
        specRun (specRun best sel l1).1 (specRun best sel l1).2 l2 := by
  induction l1 with
  | nil => intro best sel; simp [specRun]
  | cons h t ih =>
      intro best sel
      simp only [List.cons_append, specRun]
      split
      · exact ih _ _
      · exact ih _ _

theorem bin_seq_step_eq_specRun (pr : List Char → List Char → Nat)
    (startW endRC : List Char) (acc : (Nat × Nat) × Option BCPair)
    (pair : BCPair) :
    bin_seq_step pr startW endRC acc pair =
      specRun acc.1 acc.2
        [(pair, pr pair.1 startW, pr pair.2 endRC),
         (pair, pr pair.2 startW, pr pair.1 endRC)] := by
  rcases acc with ⟨⟨a1, a2⟩, sel⟩
  by_cases h1 : a1 < pr pair.1 startW ∧ a2 < pr pair.2 endRC <;>
    by_cases h2 : a1 < pr pair.2 startW ∧ a2 < pr pair.1 endRC <;>
    simp [bin_seq_step, specRun, h1, h2]

theorem foldl_bin_seq_step_eq_specRun (pr : List Char → List Char → Nat)
    (startW endRC : List Char) (barcodes : List BCPair) :
    ∀ acc : (Nat × Nat) × Option BCPair,
      barcodes.foldl (bin_seq_step pr startW endRC) acc =
        specRun acc.1 acc.2 (bin_hyps pr startW endRC barcodes) := by
  induction barcodes with
  | nil => intro acc; simp [bin_hyps, specRun]
  | cons pair rest ih =>
      intro acc
      have hh : bin_hyps pr startW endRC (pair :: rest) =
          [(pair, pr pair.1 startW, pr pair.2 endRC),
           (pair, pr pair.2 startW, pr pair.1 endRC)]
            ++ bin_hyps pr startW endRC rest := by
        simp [bin_hyps]
      rw [List.foldl_cons, ih, hh, specRun_append,
        bin_seq_step_eq_specRun]

theorem specRun_snd_eq_strictWinners (hs : List (BCPair × Nat × Nat)) :
    ∀ (best : Nat × Nat) (sel : Option BCPair),
      (specRun best sel hs).2 =
        ((strictWinners best hs).map some).getLastD sel := by
  induction hs with
  | nil => intro best sel; simp [specRun, strictWinners]
  | cons h rest ih =>
      intro best sel
      simp only [specRun, strictWinners]
      split
      · rw [ih, List.map_cons, List.getLastD_cons]
      · exact ih best sel

theorem map_some_getLastD_none {α : Type} (l : List α) :
    (l.map some).getLastD none = l.getLast? := by
  induction l with
  | nil => simp
  | cons a t ih =>
      cases t with
      | nil => simp
      | cons b t2 =>
          rw [List.map_cons, List.getLastD_cons] at ih
          rw [List.map_cons, List.getLastD_cons, List.map_cons,
            List.getLastD_cons]
          rw [ih, List.getLast?_cons_cons]

/-- Claim C4: for every read, `_bin_seq` maintains one running best score
pair, initialised to `(score_threshold, score_threshold)`, across all
candidate barcode pairs and both orientation hypotheses (forward then
reverse per pair, in order); a hypothesis replaces the incumbent selected
pair only when both of its scores strictly exceed the corresponding sides of
the running best (a tie on either side never replaces), the read's selected
pair is the last pair that achieved such a strict two-sided improvement
(`none` when no hypothesis did, in which case the read lands in no bin), and
a read is in a pair's bin of `bin_seqs` exactly when that pair was selected
for it. -/
theorem C4_running_best_last_strict_winner
    (pr : List Char → List Char → Nat) (rc : List Char → List Char)
    (s : Read) (max_barcode_len search_len score_threshold : Nat)
    (barcodes : List BCPair) :
    (bin_seq pr rc s max_barcode_len search_len score_threshold barcodes =
      (strictWinners (score_threshold, score_threshold)
        (bin_hyps pr (trimStart (max_barcode_len + search_len) s.seq)
          (rc (trimEnd (max_barcode_len + search_len) s.seq))
          barcodes)).getLast?)
    ∧ (strictWinners (score_threshold, score_threshold)
        (bin_hyps pr (trimStart (max_barcode_len + search_len) s.seq)
          (rc (trimEnd (max_barcode_len + search_len) s.seq))
          barcodes) = [] →
      bin_seq pr rc s max_barcode_len search_len score_threshold barcodes =
        none)
    ∧ (∀ (sequences : List Read) (p : BCPair) (m : Nat),
        (barcodes.flatMap
          (fun pair => [pair.1.length, pair.2.length])).max? = some m →
        ∃ bins,
          bin_seqs pr rc barcodes sequences score_threshold search_len =
            .ok bins
          ∧ bins BinKey.undefined = []
          ∧ ∀ r, r ∈ bins (BinKey.pair p) ↔ r ∈ sequences ∧
              bin_seq pr rc r m search_len score_threshold barcodes =
                some p) := by
  have hmain : bin_seq pr rc s max_barcode_len search_len score_threshold
      barcodes =
      (strictWinners (score_threshold, score_threshold)
        (bin_hyps pr (trimStart (max_barcode_len + search_len) s.seq)
          (rc (trimEnd (max_barcode_len + search_len) s.seq))
          barcodes)).getLast? := by
    unfold bin_seq
    dsimp only
    rw [foldl_bin_seq_step_eq_specRun, specRun_snd_eq_strictWinners,
      map_some_getLastD_none]
  refine ⟨hmain, ?_, ?_⟩
  · intro hempty
    rw [hmain, hempty]
    rfl
  · intro sequences p m hm
    have hne : barcodes.isEmpty = false := by
      cases barcodes with
      | nil => simp [List.max?] at hm
      | cons b bs => rfl
    refine ⟨fun k => match k with
      | BinKey.undefined => []
      | BinKey.pair q => sequences.filter (fun r =>
          bin_seq pr rc r m search_len score_threshold barcodes = some q),
      ?_, rfl, ?_⟩
    · unfold bin_seqs
      rw [hm]
      simp only [hne, Bool.false_eq_true, if_false]
    · intro r
      simp [List.mem_filter]

theorem C4_running_best_last_strict_winner_witness :
    ∃ bins,
      bin_seqs (fun a b => a.length + b.length) id [(['A'], ['T'])]
          [⟨"r1", ['A', 'C', 'G']⟩] 1 2 = .ok bins
      ∧ bins BinKey.undefined = []
      ∧ ∀ r, r ∈ bins (BinKey.pair (['A'], ['T'])) ↔
          r ∈ [(⟨"r1", ['A', 'C', 'G']⟩ : Read)] ∧
          bin_seq (fun a b => a.length + b.length) id r 1 2 1
            [(['A'], ['T'])] = some (['A'], ['T']) :=
  (C4_running_best_last_strict_winner (fun a b => a.length + b.length) id
    ⟨"r1", ['A', 'C', 'G']⟩ 1 2 1 [(['A'], ['T'])]).2.2
    [⟨"r1", ['A', 'C', 'G']⟩] (['A'], ['T']) 1 (by decide)

/-- Claim C2 (evaluation at the failing input): the claim requires
`bin_seqs` called with no barcode pairs to return normally with every read in
the `undefined` bin, but the source computes `max([len(barcode) for pair in
barcodes for barcode in pair])` before testing `if barcodes:`, and Python's
`max` raises `ValueError: max() arg is an empty sequence` on the empty list,
so the call raises before the `undefined` branch can run. -/
theorem C2_bin_seqs_empty_barcodes_raises :
    bin_seqs (fun a b => a.length + b.length) id []
        [⟨"r1", ['A', 'C', 'G', 'T']⟩] 90 256 =
      .error "max() arg is an empty sequence" := rfl

/- ================================================================
   Consensus reconstructor: `_replace_indels` in seq_genie/utils.py (the
   gap-only policy) and `_strip` / `_valid` in seq_genie/nicole.py (the
   validated policy).

   An aligned read carries its `aligned_pairs` as provided by pysam: an
   ordered list of (read index or none, template index or none).  Python
   indexing `s[i]` on an in-bounds index is `getD`; the spec's invariant
   keeps indices within bounds.  Note that the source tests read positions
   with Python truthiness (`if pair[0]`, `pair[0] and ...`), under which
   index 0 is falsy like `None`.
   ================================================================ -/

/-- A read together with its alignment to the template. -/
structure AlignedRead where
  qname : String
  seq : List Char
  aligned_pairs : List (Option Nat × Option Nat)
deriving DecidableEq

/-- Python truthiness of an optional index: `None` and `0` are falsy. -/
def truthy : Option Nat → Bool
  | none => false
  | some n => n != 0

/-- Python indexing `s[i]` for an optional index known to be in bounds. -/
def charAt (s : List Char) (i : Option Nat) : Char :=
  s.getD (i.getD 0) '?'

/-- The comprehension of `_replace_indels` in seq_genie/utils.py:
`read.seq[pair[0]] if pair[0] else templ_seq[pair[1]] for pair in
read.aligned_pairs if pair[1] is not None`. -/
def replace_indels_body (read : AlignedRead) (templ_seq : List Char) :
    List Char :=
  (read.aligned_pairs.filter (fun pair => pair.2.isSome)).map
    (fun pair => if truthy pair.1 then charAt read.seq pair.1
      else charAt templ_seq pair.2)

/-- The per-read step of `_replace_indels`: yield a record when the rebuilt
sequence is non-empty, else nothing. -/
def replace_indels_read (read : AlignedRead) (templ_seq : List Char) :
    Option (String × List Char) :=
  let seq := replace_indels_body read templ_seq
  if seq ≠ [] then some (read.qname, seq) else none

/-- Function `_replace_indels` from seq_genie/utils.py over a list of reads. -/
def replace_indels (reads : List AlignedRead) (templ_seq : List Char) :
    List (String × List Char) :=
  reads.filterMap (fun read => replace_indels_read read templ_seq)

/-- Function `_valid` from seq_genie/nicole.py.  `inv_nucl_codes` is the external
ambiguity-code table (synbiochem's INV_NUCL_CODES); the first conjunct is
Python truthiness of `pair[0]`. -/
def valid_pair (inv_nucl_codes : Char → List Char) (read : AlignedRead)
    (templ_seq mut_templ_seq : List Char)
    (pair : Option Nat × Option Nat) : Bool :=
  truthy pair.1
    && (charAt read.seq pair.1 != 'N')
    && ((inv_nucl_codes (charAt mut_templ_seq pair.2)).contains
          (charAt read.seq pair.1)
        || (charAt read.seq pair.1 == charAt templ_seq pair.2))

/-- The comprehension of `_strip` in seq_genie/nicole.py, generalised over
the per-pair validity predicate (`_valid` instantiates it). -/
def strip_body (valid : Option Nat × Option Nat → Bool) (read : AlignedRead)
    (templ_seq : List Char) : List Char :=
  (read.aligned_pairs.filter (fun pair => pair.2.isSome)).map
    (fun pair => if valid pair then charAt read.seq pair.1
      else charAt templ_seq pair.2)

/-- The per-read step of `_strip` from seq_genie/nicole.py.  Reads with no
aligned pairs are skipped (`if read.aligned_pairs:`).  Otherwise the prefix
is `templ_seq[:min([val for val in templ_idx if val])]` — the comprehension
drops `None` AND `0` (truthiness), and Python's `min` raises `ValueError` on
an empty sequence — and the suffix is `templ_seq[max(templ_idx) + 1:]`
(under Python 2, `None` compares below every int).  A record is produced
when the rebuilt body is non-empty. -/
def strip_read (valid : Option Nat × Option Nat → Bool) (read : AlignedRead)
    (templ_seq : List Char) : Except String (Option (String × List Char)) :=
  if read.aligned_pairs.isEmpty then .ok none
  else
    match (((read.aligned_pairs.map (·.2)).filterMap id).filter
        (fun v => v != 0)).min? with
    | none => .error "min() arg is an empty sequence"
    | some m =>
        let mx := ((read.aligned_pairs.map (·.2)).filterMap id).max?.getD 0
        let seq := strip_body valid read templ_seq
        if seq ≠ []
        then .ok (some (read.qname,
          templ_seq.take m ++ seq ++ templ_seq.drop (mx + 1)))
        else .ok none

/-- The reconstruction formula as the spec words it (section 4.3): for each
pair with a defined template position, emit the read base when the read
position is defined and the spec predicate holds for (read_position,
template_position); otherwise the template base. -/
def reconstruct_spec (pred : Nat → Nat → Bool)
    (read_seq templ_seq : List Char)
    (pairs : List (Option Nat × Option Nat)) : List Char :=
  (pairs.filter (fun pair => pair.2.isSome)).map
    (fun pair => match pair.1 with
      | some rp => if pred rp (pair.2.getD 0)
          then read_seq.getD rp '?'
          else charAt templ_seq pair.2
      | none => charAt templ_seq pair.2)

/-- The defined template positions of an alignment, as the filtered-and-
mapped view of the pairs whose template side is defined. -/
theorem filterMap_snd_eq_map_filter (pairs : List (Option Nat × Option Nat)) :
    (pairs.map (·.2)).filterMap id =
      (pairs.filter (fun pair => pair.2.isSome)).map
        (fun pair => pair.2.getD 0) := by
  induction pairs with
  | nil => simp
  | cons p t ih =>
      cases hp : p.2 with
      | none => simp [hp, ih]
      | some v => simp [hp, ih]

/-- Claim C3 (the claim as stated is false): under the gap-only policy of
`_replace_indels`, an alignment in which every pair has a defined read
position — here the single pair (read 0, template 0) — does not reproduce
the read's own bases: Python truthiness treats read position 0 as a gap and
emits the template base instead, so the claim's formula (read base whenever
the read position is defined) disagrees with the code. -/
theorem C3_counterexample :
    (∀ pair ∈ ([(some 0, some 0)] :
        List (Option Nat × Option Nat)), pair.1.isSome)
    ∧ replace_indels_body ⟨"r", ['A'], [(some 0, some 0)]⟩ ['C'] = ['C']
    ∧ reconstruct_spec (fun _ _ => true) ['A'] ['C'] [(some 0, some 0)]
        = ['A']
    ∧ replace_indels_body ⟨"r", ['A'], [(some 0, some 0)]⟩ ['C'] ≠
        reconstruct_spec (fun _ _ => true) ['A'] ['C']
          [(some 0, some 0)] := by
  decide

/-- Claim C3 (amended): the reconstructed body is the concatenation, in
template order, over the pairs with a defined template position, of the read
base when the read position is defined AND NONZERO and the plausibility
predicate holds, and the template base otherwise (read position 0 is treated
as a gap by Python truthiness); in particular, under the gap-only policy an
alignment in which every pair has a defined nonzero read position reproduces
the read's own bases in template order regardless of template content. -/
theorem C3_reconstruction_body_amended :
    (∀ (read : AlignedRead) (templ_seq : List Char),
      replace_indels_body read templ_seq =
        reconstruct_spec (fun rp _ => rp != 0) read.seq templ_seq
          read.aligned_pairs)
    ∧ (∀ (plaus : Nat → Nat → Bool) (read : AlignedRead)
        (templ_seq : List Char),
      strip_body
          (fun pair => truthy pair.1
            && plaus (pair.1.getD 0) (pair.2.getD 0)) read templ_seq =
        reconstruct_spec (fun rp tp => (rp != 0) && plaus rp tp) read.seq
          templ_seq read.aligned_pairs)
    ∧ (∀ (read : AlignedRead) (templ_seq : List Char),
      (∀ pair ∈ read.aligned_pairs, ∃ n, pair.1 = some n ∧ n ≠ 0) →
      replace_indels_body read templ_seq =
        (read.aligned_pairs.filter (fun pair => pair.2.isSome)).map
          (fun pair => charAt read.seq pair.1)) := by
  refine ⟨?_, ?_, ?_⟩
  · intro read templ_seq
    unfold replace_indels_body reconstruct_spec
    apply List.map_congr_left
    intro pair _
    cases hp : pair.1 with
    | none => simp [truthy, hp]
    | some n => simp [truthy, hp, charAt]
  · intro plaus read templ_seq
    unfold strip_body reconstruct_spec
    apply List.map_congr_left
    intro pair _
    cases hp : pair.1 with
    | none => simp [truthy, hp]
    | some n => simp [truthy, hp, charAt]
  · intro read templ_seq hall
    unfold replace_indels_body
    apply List.map_congr_left
    intro pair hmem
    obtain ⟨n, hn, hn0⟩ := hall pair (List.mem_of_mem_filter hmem)
    simp [truthy, hn, hn0]

theorem C3_reconstruction_body_amended_witness :
    replace_indels_body ⟨"r", ['X', 'A', 'B'],
        [(some 1, some 0), (some 2, some 1)]⟩ ['C', 'C'] =
      ([((some 1 : Option Nat), (some 0 : Option Nat)),
        (some 2, some 1)].filter (fun pair => pair.2.isSome)).map
        (fun pair => charAt ['X', 'A', 'B'] pair.1) :=
  C3_reconstruction_body_amended.2.2
    ⟨"r", ['X', 'A', 'B'], [(some 1, some 0), (some 2, some 1)]⟩
    ['C', 'C'] (by decide)

theorem strip_body_ne_nil_of_dts_ne_nil
    (valid : Option Nat × Option Nat → Bool) (read : AlignedRead)
    (templ_seq : List Char)
    (h : (read.aligned_pairs.map (·.2)).filterMap id ≠ []) :
    strip_body valid read templ_seq ≠ [] := by
  intro hb
  apply h
  rw [filterMap_snd_eq_map_filter]
  unfold strip_body at hb
  rw [List.map_eq_nil_iff.mp hb]
  rfl

theorem isEmpty_false_of_ne_nil {α : Type} {l : List α} (h : l ≠ []) :
    l.isEmpty = false := by
  cases hq : l with
  | nil => exact absurd hq h
  | cons a t => rfl

/-- Claim C8 (the claim as stated is false): for the alignment with pairs
(read 0, template 0), (read 1, template 1) over the length-3 template GGT,
the first defined template position is 0, so the claim requires the prefix
flank `template[:0] = ''`; but the source computes the prefix bound with
`min([val for val in templ_idx if val])`, whose comprehension drops the
truthy-falsy value 0, so the prefix is `template[:1] = 'G'` and template
base 0 is emitted twice (once in the flank, once in the body). -/
theorem C8_counterexample :
    ((([(some 0, some 0),
        (some 1, some 1)].map (fun p : Option Nat × Option Nat => p.2)
        ).filterMap id).min? = some 0)
    ∧ strip_read (fun pair => truthy pair.1)
        ⟨"r", ['A', 'C'], [(some 0, some 0), (some 1, some 1)]⟩
        ['G', 'G', 'T'] = .ok (some ("r", ['G', 'G', 'C', 'T']))
    ∧ (['G', 'G', 'C', 'T'] : List Char) ≠
        (['G', 'G', 'T'].take 0)
          ++ strip_body (fun pair => truthy pair.1)
              ⟨"r", ['A', 'C'], [(some 0, some 0), (some 1, some 1)]⟩
              ['G', 'G', 'T']
          ++ (['G', 'G', 'T'].drop 2) := by
  refine ⟨by decide, rfl, by decide⟩

/-- Claim C8 (amended): for every per-pair policy and every alignment whose
defined template positions do not include 0 (and at least one exists, with
minimum `m`), the returned sequence is exactly the unedited template up to
(excluding) the first defined template position `m`, then the reconstructed
body, then the unedited template from just after the last defined template
position — as the claim states; a defined template position 0, however, is
dropped from the prefix-bound computation by Python truthiness, so there the
flank duplicates the covered template base (see the counterexample). -/
theorem C8_flanks_amended (valid : Option Nat × Option Nat → Bool)
    (read : AlignedRead) (templ_seq : List Char) (m : Nat)
    (h0 : 0 ∉ (read.aligned_pairs.map (·.2)).filterMap id)
    (hm : ((read.aligned_pairs.map (·.2)).filterMap id).min? = some m) :
    strip_read valid read templ_seq =
      .ok (some (read.qname,
        templ_seq.take m ++ strip_body valid read templ_seq ++
          templ_seq.drop
            ((((read.aligned_pairs.map (·.2)).filterMap id).max?.getD 0)
              + 1))) := by
  have hdts_ne : (read.aligned_pairs.map (·.2)).filterMap id ≠ [] := by
    intro h
    rw [h] at hm
    exact Option.noConfusion hm
  have hfilter : (((read.aligned_pairs.map (·.2)).filterMap id).filter
      (fun v => v != 0)) = (read.aligned_pairs.map (·.2)).filterMap id := by
    apply List.filter_eq_self.mpr
    intro v hv
    simp only [bne_iff_ne, ne_eq, decide_eq_true_eq]
    intro h
    exact h0 (h ▸ hv)
  have hpairs_ne : read.aligned_pairs ≠ [] := by
    intro h
    apply hdts_ne
    rw [h]
    rfl
  have hbody := strip_body_ne_nil_of_dts_ne_nil valid read templ_seq hdts_ne
  unfold strip_read
  rw [if_neg (by simp [isEmpty_false_of_ne_nil hpairs_ne])]
  rw [hfilter, hm]
  dsimp only
  rw [if_pos hbody]

theorem C8_flanks_amended_witness :
    strip_read (fun pair => truthy pair.1)
        ⟨"r", ['X', 'A', 'B'], [(some 1, some 1), (some 2, some 2)]⟩
        ['Q', 'W', 'E', 'R'] = .ok (some ("r", ['Q', 'A', 'B', 'R'])) := by
  have h := C8_flanks_amended (fun pair => truthy pair.1)
    ⟨"r", ['X', 'A', 'B'], [(some 1, some 1), (some 2, some 2)]⟩
    ['Q', 'W', 'E', 'R'] 1 (by decide) (by decide)
  exact h

/-- Claim C9 (the claim as stated is false): in `_strip`, a read whose only
aligned pair is (read 0, template 0) has a non-empty reconstructed body, yet
no record is produced: `min([val for val in templ_idx if val])` raises
`ValueError` because the only defined template position, 0, is falsy; and a
read aligned only by the pair (read 1, template None) has an empty body but
likewise raises instead of being silently discarded. -/
theorem C9_counterexample :
    (strip_body (fun pair => truthy pair.1)
        ⟨"r", ['A'], [(some 0, some 0)]⟩ ['A'] ≠ [])
    ∧ strip_read (fun pair => truthy pair.1)
        ⟨"r", ['A'], [(some 0, some 0)]⟩ ['A'] =
        .error "min() arg is an empty sequence"
    ∧ (strip_body (fun pair => truthy pair.1)
        ⟨"r2", ['A'], [(some 1, none)]⟩ ['A'] = [])
    ∧ strip_read (fun pair => truthy pair.1)
        ⟨"r2", ['A'], [(some 1, none)]⟩ ['A'] =
        .error "min() arg is an empty sequence" := by
  refine ⟨by decide, rfl, by decide, rfl⟩

/-- Claim C9 (amended): the gap-only reconstructor `_replace_indels`
discards a read exactly when its reconstructed body is empty and always
yields a record otherwise; the validated reconstructor `_strip` silently
skips a read with no aligned pairs and always yields a record when some
nonzero defined template position exists, but when the alignment is
non-empty and every template position is None or 0 it raises `ValueError`
(from `min` on an empty sequence) instead of signalling "no result". -/
theorem C9_empty_reconstruction_amended :
    (∀ (reads : List AlignedRead) (templ_seq : List Char),
      replace_indels reads templ_seq =
        (reads.filter (fun read =>
            !(replace_indels_body read templ_seq).isEmpty)).map
          (fun read => (read.qname, replace_indels_body read templ_seq)))
    ∧ (∀ (valid : Option Nat × Option Nat → Bool) (read : AlignedRead)
        (templ_seq : List Char),
        read.aligned_pairs = [] →
        strip_read valid read templ_seq = .ok none)
    ∧ (∀ (valid : Option Nat × Option Nat → Bool) (read : AlignedRead)
        (templ_seq : List Char),
        read.aligned_pairs ≠ [] →
        (((read.aligned_pairs.map (·.2)).filterMap id).filter
          (fun v => v != 0)) = [] →
        strip_read valid read templ_seq =
          .error "min() arg is an empty sequence")
    ∧ (∀ (valid : Option Nat × Option Nat → Bool) (read : AlignedRead)
        (templ_seq : List Char),
        (((read.aligned_pairs.map (·.2)).filterMap id).filter
          (fun v => v != 0)) ≠ [] →
        ∃ out, strip_read valid read templ_seq = .ok (some out)) := by
  refine ⟨?_, ?_, ?_, ?_⟩
  · intro reads templ_seq
    induction reads with
    | nil => rfl
    | cons r t ih =>
        by_cases hb : replace_indels_body r templ_seq = []
        · have hr : replace_indels_read r templ_seq = none := by
            simp [replace_indels_read, hb]
          simp [replace_indels, List.filterMap_cons, hr, List.filter_cons,
            hb] at ih ⊢
          exact ih
        · have hr : replace_indels_read r templ_seq =
              some (r.qname, replace_indels_body r templ_seq) := by
            simp [replace_indels_read, hb]
          simp [replace_indels, List.filterMap_cons, hr, List.filter_cons,
            hb] at ih ⊢
          exact ih
  · intro valid read templ_seq h
    simp [strip_read, h]
  · intro valid read templ_seq hne hf
    unfold strip_read
    rw [if_neg (by simp [isEmpty_false_of_ne_nil hne])]
    rw [hf]
    rfl
  · intro valid read templ_seq hf
    have hdts_ne : (read.aligned_pairs.map (·.2)).filterMap id ≠ [] := by
      intro h
      apply hf
      rw [h]
      rfl
    have hpairs_ne : read.aligned_pairs ≠ [] := by
      intro h
      apply hdts_ne
      rw [h]
      rfl
    have hbody := strip_body_ne_nil_of_dts_ne_nil valid read templ_seq
      hdts_ne
    cases hL : (((read.aligned_pairs.map (·.2)).filterMap id).filter
        (fun v => v != 0)) with
    | nil => exact absurd hL hf
    | cons a t =>
        refine ⟨(read.qname,
          templ_seq.take (t.foldl min a) ++ strip_body valid read templ_seq
            ++ templ_seq.drop
              ((((read.aligned_pairs.map (·.2)).filterMap id).max?.getD 0)
                + 1)), ?_⟩
        unfold strip_read
        rw [if_neg (by simp [isEmpty_false_of_ne_nil hpairs_ne])]
        rw [hL]
        dsimp only [List.min?]
        rw [if_pos hbody]

theorem C9_empty_reconstruction_amended_witness :
    strip_read (fun pair => truthy pair.1)
        ⟨"r", ['A'], [(some 0, some 0)]⟩ ['C'] =
      .error "min() arg is an empty sequence" :=
  C9_empty_reconstruction_amended.2.2.1 (fun pair => truthy pair.1)
    ⟨"r", ['A'], [(some 0, some 0)]⟩ ['C'] (by decide) (by decide)

end SeqGenie
